import Mathlib

/-!
Verification of the vimb key-mapping engine (src/map.c) via a shallow
embedding.  Bytes are modelled as `Nat` (the value of the C `char` viewed
as an unsigned byte); C buffers are modelled as `List Nat` holding exactly
the valid bytes, with in-place buffer surgery additionally modelled at the
raw-buffer level (`shiftR`, `shiftL`, `strncpyBuf`, `subst_arr`) to verify
the substitution block against its list-level counterpart.

External parts not present under src/ (the `IS_CTRL`/`CTRL` macros of
main.h, the queue capacity constant `MAP_QUEUE_SIZE` of config.h, the GLib
timer source ids and the downstream `mode_handle_key` consumer) are
modelled from the spec, as noted on each definition.
-/

namespace Vimb

/-- The `MapState` result enum of map.h, as used by `map_handle_keys`
(map.c lines 161, 194, 229). -/
inductive MapState
  | MAP_DONE
  | MAP_NOMATCH
  | MAP_AMBIGUOUS
deriving DecidableEq, Repr

export MapState (MAP_DONE MAP_NOMATCH MAP_AMBIGUOUS)

/-- The `Map` record (map.c lines 27-33).  The C fields `inlen` and
`mappedlen` always equal the lengths of the `in`/`mapped` byte strings
(they are set together in `map_insert`), so they are represented by
`List.length` here.  The field `in` is named `in_` because `in` is a
reserved word. -/
structure Map where
  in_ : List Nat
  mapped : List Nat
  mode : Nat
deriving DecidableEq, Repr

/-- The slice of `vb.mode` that map.c reads and writes: the mode id
(`vb.mode->id`) and the FLAG_NOMAP bit of `vb.mode->flags`. -/
structure ModeInfo where
  id : Nat
  nomap : Bool
deriving DecidableEq, Repr

/-- The mutable state touched by map.c: the static `map` struct
(list, queue, resolved, showbuf, timout_id), the `vb.mode` slice, the
hidden state `cstate` of the downstream key consumer, and `out`, the
observational trace of bytes handed to `mode_handle_key`. The `queue`
list holds exactly the `qlen` valid bytes (oldest first); `showbuf`
holds the `slen` bytes before the NUL terminator. -/
structure Sys (σ : Type) where
  list : List Map
  queue : List Nat
  resolved : Nat
  showbuf : List Nat
  timout_id : Nat
  mode : ModeInfo
  cstate : σ
  out : List Nat
deriving DecidableEq, Repr

/-- IS_CTRL (main.h, not under src/).  Modelled from the spec: a control
byte, rendered with caret notation by the Display Adapter. -/
def IS_CTRL (c : Nat) : Bool := c ≤ 0x1f

/-- CTRL (main.h, not under src/).  Modelled from the spec: the
conventional vi control-character involution `c XOR 0x40` (Ctrl-A..Z are
bytes 1..26; the printable form of a control byte is `c + 0x40`). -/
def CTRL (c : Nat) : Nat := c ^^^ 0x40

/-- The copy loop of `showcmd` (map.c lines 407-415): append keys while
`slen < max` (max = LENGTH(showbuf) - 2 = 10), rendering a control byte
as the two bytes `'^'` (94) and its printable form. -/
def showcmdRender (sb : List Nat) : List Nat → List Nat
  | [] => sb
  | k :: ks =>
    if sb.length < 10 then
      if IS_CTRL k then showcmdRender (sb ++ [94, CTRL k]) ks
      else showcmdRender (sb ++ [k]) ks
    else sb

/-- `showcmd(keys, keylen, append)` (map.c lines 392-421) acting on the
show buffer contents:  `append = false` first resets the buffer; a zero
`keylen` truncates the buffer to empty. -/
def showcmd (sb : List Nat) (keys : List Nat) (append : Bool) : List Nat :=
  let sb0 := if append then sb else []
  if keys.length == 0 then [] else showcmdRender sb0 keys

/-- `strncmp(a, b, n) == 0` on C byte buffers: compare at most `n` bytes,
stopping early at a difference or at a NUL byte.  The represented lists
hold the buffer bytes; when a list is exhausted before `n` the C buffer
holds the string's NUL terminator there (all call sites in map.c keep
`n` within both represented lists). -/
def strncmpEq : List Nat → List Nat → Nat → Bool
  | _, _, 0 => true
  | x :: xs, y :: ys, n + 1 => x == y && (x == 0 || strncmpEq xs ys n)
  | [], y :: _, _ + 1 => y == 0
  | x :: _, [], _ + 1 => x == 0
  | [], [], _ + 1 => true

/-- `strcmp(a, b) == 0` for NUL-terminated strings whose bytes before the
terminator are the given lists: equality of the parts before the first
NUL byte. -/
def strcmpEq (a b : List Nat) : Bool :=
  a.takeWhile (· != 0) == b.takeWhile (· != 0)

/-- The `do/while` scan of `map_convert_keys` that finds the length of a
`<...>` token (map.c lines 290-298): `rest` holds the bytes after the
opening `<` and `k` starts at 1; stop (without counting) at end of input,
at a second `<` (60) or a space (32), and stop counting the `>` (62). -/
def symLenAux : List Nat → Nat → Nat
  | [], k => k
  | c :: cs, k =>
    if c == 60 || c == 32 then k
    else if c == 62 then k + 1
    else symLenAux cs (k + 1)

/-- `map_convert_keylabel` (map.c lines 352-374): the named tokens
`<CR>` (to 10), `<Tab>` (to 9) and `<Esc>` (to 27); anything else yields
length 0 (NULL). -/
def map_convert_keylabel (tok : List Nat) : List Nat :=
  if tok == [60, 67, 82, 62] then [10]
  else if tok == [60, 84, 97, 98, 62] then [9]
  else if tok == [60, 69, 115, 99, 62] then [27]
  else []

/-- Conversion of one scanned token (map.c lines 300-330): if the token
ends in `>`, try the `<C-x>` form (length exactly 5, `-` at offset 2,
`C` at offset 1, `x` in A..] or a..z) and then the named key labels;
a token with no recognized conversion is used literally. -/
def tok_raw (tok : List Nat) : List Nat :=
  let raw : List Nat :=
    if tok.getLast? == some 62 then
      let cx : List Nat :=
        if tok.length == 5 && tok.getD 2 0 == 45 && tok.getD 1 0 == 67 then
          let x := tok.getD 3 0
          if 0x41 ≤ x ∧ x ≤ 0x5d then [x - 0x40]
          else if 0x61 ≤ x ∧ x ≤ 0x7a then [x - 0x60]
          else []
        else []
      if cx.isEmpty then map_convert_keylabel tok else cx
    else []
  if raw.isEmpty then tok else raw

/-- The scanning loop of `map_convert_keys` (map.c lines 281-339), with
explicit fuel to keep the recursion structural; every step consumes at
least one input byte, so fuel `l.length` (as supplied by
`map_convert_keys`) never runs out. -/
def map_convert_go : Nat → List Nat → List Nat
  | 0, _ => []
  | _, [] => []
  | f + 1, c :: rest =>
    if c == 60 then
      let symlen := symLenAux rest 1
      tok_raw (c :: rest.take (symlen - 1)) ++ map_convert_go f (rest.drop (symlen - 1))
    else c :: map_convert_go f rest

/-- `map_convert_keys` (map.c lines 273-346): translate a key-notation
byte sequence into the internal raw byte sequence. -/
def map_convert_keys (l : List Nat) : List Nat :=
  map_convert_go l.length l

/-- `map_insert` (map.c lines 232-247): translate both sides and prepend
the new record to the list. -/
def map_insert (l : List Map) (in_ mapped : List Nat) (mode : Nat) : List Map :=
  { in_ := map_convert_keys in_, mapped := map_convert_keys mapped, mode := mode } :: l

/-- The removal test of `map_delete` (map.c line 258):
`m->mode == mode && m->inlen == len && !strcmp(m->in, lhs)`. -/
def del_match (lhs : List Nat) (mode : Nat) (m : Map) : Bool :=
  m.mode == mode && m.in_.length == lhs.length && strcmpEq m.in_ lhs

/-- The scan of `map_delete` (map.c lines 254-264): remove the first
record whose mode, lhs length and lhs bytes (by `strcmp`) match. -/
def map_delete_go (lhs : List Nat) (mode : Nat) : List Map → Bool × List Map
  | [] => (false, [])
  | m :: l =>
    if del_match lhs mode m then (true, l)
    else
      let r := map_delete_go lhs mode l
      (r.1, m :: r.2)

/-- `map_delete` (map.c lines 249-267): translate the given lhs text,
then unlink the first matching record; reports whether one was found. -/
def map_delete (l : List Map) (in_ : List Nat) (mode : Nat) : Bool × List Map :=
  map_delete_go (map_convert_keys in_) mode l

/-- One pass of the drain loop body (map.c lines 137-156): pop the front
byte of the queue, clear FLAG_NOMAP, hand the byte to `mode_handle_key`
(the consumer `hk`, which may update its hidden state and the mode
state), and clear the show buffer when the consumer reports anything but
RESULT_MORE (`hk`'s Bool component). -/
def drainStep {σ : Type} (hk : σ → ModeInfo → Nat → σ × ModeInfo × Bool)
    (s : Sys σ) : Sys σ :=
  let qk := s.queue.headD 0
  let r := hk s.cstate { s.mode with nomap := false } qk
  { s with queue := s.queue.tail,
           resolved := s.resolved - 1,
           cstate := r.1,
           mode := r.2.1,
           showbuf := if r.2.2 then [] else s.showbuf,
           out := s.out ++ [qk] }

/-- The drain loop `while (map.resolved > 0)` (map.c line 137), run for
`n` iterations; `map_handle_keys` supplies `n = resolved`. -/
def drain {σ : Type} (hk : σ → ModeInfo → Nat → σ × ModeInfo × Bool) :
    Nat → Sys σ → Sys σ
  | 0, s => s
  | n + 1, s => drain hk n (drainStep hk s)

/-- Whether `m` improves on the currently backed-up match:
`!match || match->inlen < m->inlen` (map.c line 183). -/
def matchBetter (cur : Option Map) (m : Map) : Bool :=
  match cur with
  | none => true
  | some c => decide (c.in_.length < m.in_.length)

/-- The match-scan loop over `map.list` (map.c lines 168-188): skip
records of other modes; count a record as ambiguous when (not a timeout
call) its lhs is strictly longer than the queue and agrees with the whole
queue; back it up as the match when its lhs fits in the queue, agrees
with the leading queue bytes, and is strictly longer than the backup. -/
def map_lookup (timeout : Bool) (modeId : Nat) (queue : List Nat) :
    List Map → Option Map → Nat → Option Map × Nat
  | [], cur, amb => (cur, amb)
  | m :: l, cur, amb =>
    if m.mode != modeId then map_lookup timeout modeId queue l cur amb
    else
      let amb' := if !timeout && decide (queue.length < m.in_.length)
                     && strncmpEq m.in_ queue queue.length then amb + 1 else amb
      let cur' := if decide (m.in_.length ≤ queue.length)
                     && strncmpEq m.in_ queue m.in_.length
                     && matchBetter cur m then some m else cur
      map_lookup timeout modeId queue l cur' amb'

/-- The resolution loop `while (true)` of `map_handle_keys` (map.c lines
135-226), with fuel (the C loop may not terminate); `cur` is the value of
the C `match` variable at the top of the iteration.  Per iteration: drain
`resolved` bytes; if the queue emptied, return `MAP_DONE` exactly when
`cur` is a match; otherwise scan the table (skipped entirely under
FLAG_NOMAP), surfacing the queue to the show buffer and returning
`MAP_AMBIGUOUS` when an ambiguous candidate was counted; otherwise either
substitute the match (the raw-buffer effect of lines 199-220, shown in
`subst_arr_spec` to equal `mapped ++ drop inlen queue` with
`resolved = min inlen mappedlen`) or fall back to resolving the first
byte literally. -/
def mloop_lookup {σ : Type} (timeout : Bool) (s1 : Sys σ) : Option Map × Nat :=
  if s1.mode.nomap then (none, 0)
  else map_lookup timeout s1.mode.id s1.queue s1.list none 0

/-- The resolution loop proper; see `mloop_lookup` for the guarded match
scan (map.c lines 164-189) it invokes each iteration. -/
def mloop {σ : Type} (hk : σ → ModeInfo → Nat → σ × ModeInfo × Bool)
    (timeout : Bool) : Nat → Option Map → Sys σ → Option (Sys σ × MapState)
  | 0, _, _ => none
  | fuel + 1, cur, s =>
    let s1 := drain hk s.resolved s
    if s1.queue.isEmpty then
      some ({ s1 with resolved := 0 }, if cur.isSome then MAP_DONE else MAP_NOMATCH)
    else
      let la := mloop_lookup timeout s1
      if la.2 ≠ 0 then
        some ({ s1 with showbuf := showcmd s1.showbuf s1.queue false }, MAP_AMBIGUOUS)
      else
        match la.1 with
        | some m =>
          mloop hk timeout fuel (some m)
            { s1 with queue := m.mapped ++ s1.queue.drop m.in_.length,
                      resolved := min m.in_.length m.mapped.length }
        | none =>
          mloop hk timeout fuel none
            { s1 with resolved := 1,
                      showbuf := showcmd s1.showbuf (s1.queue.take 1) true }

/-- `map_handle_keys(keys, keylen)` (map.c lines 112-230).  `keys` is the
byte sequence of length `keylen`; an empty `keys` is the timeout signal.
A non-timeout call re-arms the one-shot disambiguation timer (`tid` is
the source id handed back by the timer facility, modelled from the spec;
the C stores it in `map.timout_id`).  Incoming bytes are appended up to
the remaining capacity (`capacity` models `MAP_QUEUE_SIZE` of config.h,
not under src/); the excess is dropped.  Then the resolution loop runs
with the given fuel (`none` = the C loop does not return). -/
def map_handle_keys {σ : Type} (hk : σ → ModeInfo → Nat → σ × ModeInfo × Bool)
    (capacity fuel tid : Nat) (s : Sys σ) (keys : List Nat) :
    Option (Sys σ × MapState) :=
  let timeout := keys.length == 0
  let s1 := if timeout then s else { s with timout_id := tid }
  let s2 := { s1 with queue := s1.queue ++ keys.take (capacity - s1.queue.length) }
  mloop hk timeout fuel none s2

/-- The tail-shifting loop for a growing substitution (map.c lines
203-205): `for (i = qlen + d, j = qlen; j > inlen; ) buf[--i] = buf[--j]`
with `d = mappedlen - inlen`; the argument is the running value of `j`. -/
def shiftR (d inlen : Nat) : Nat → List Nat → List Nat
  | 0, buf => buf
  | j + 1, buf =>
    if inlen < j + 1 then shiftR d inlen j (buf.set (j + d) (buf.getD j 0))
    else buf

/-- The copy loop for a shrinking substitution (map.c lines 208-210):
`for (i = mappedlen, j = inlen; i < qlen; ) buf[i++] = buf[j++]`, run for
its iteration count `n = qlen - i`. -/
def shiftL_go : Nat → Nat → Nat → List Nat → List Nat
  | 0, _, _, buf => buf
  | n + 1, i, j, buf => shiftL_go n (i + 1) (j + 1) (buf.set i (buf.getD j 0))

/-- The shrinking-substitution loop with the C loop bound `i < qlen`. -/
def shiftL (qlen i j : Nat) (buf : List Nat) : List Nat :=
  shiftL_go (qlen - i) i j buf

/-- `strncpy(dst, src, n)` on byte buffers: copy `src` up to its NUL,
zero-pad to `n` bytes, leaving the rest of `dst` in place. -/
def strncpyBuf (dst src : List Nat) (n : Nat) : List Nat :=
  (src.takeWhile (· != 0) ++ List.replicate n 0).take n ++ dst.drop n

/-- The full substitution block of `map_handle_keys` (map.c lines
199-220) on the raw queue buffer `buf` holding `qlen` valid bytes:
shift the tail right or left according to the length delta, copy the
mapped bytes over the front, and return the new buffer together with the
new `qlen` and `resolved`. -/
def subst_arr (buf : List Nat) (qlen : Nat) (m : Map) : List Nat × Nat × Nat :=
  let inlen := m.in_.length
  let mappedlen := m.mapped.length
  let buf1 := if inlen < mappedlen then shiftR (mappedlen - inlen) inlen qlen buf
              else if mappedlen < inlen then shiftL qlen mappedlen inlen buf
              else buf
  let buf2 := strncpyBuf buf1 m.mapped mappedlen
  (buf2, qlen + mappedlen - inlen, if inlen ≤ mappedlen then inlen else mappedlen)

/-- A concrete downstream consumer for closed test runs: keeps the mode
state as given and always reports the key as processed. -/
def hkUnit : Unit → ModeInfo → Nat → Unit × ModeInfo × Bool :=
  fun u mi _ => (u, mi, true)

/-- The engine state at startup: a given mapping table, empty queue and
show buffer, nothing resolved, no timer armed, mode 0 with FLAG_NOMAP
clear. -/
def init (l : List Map) : Sys Unit :=
  { list := l, queue := [], resolved := 0, showbuf := [], timout_id := 0,
    mode := { id := 0, nomap := false }, cstate := (), out := [] }

/-! ### Basic lemmas about the engine loops -/

theorem drain_resolved {σ : Type} (hk : σ → ModeInfo → Nat → σ × ModeInfo × Bool) :
    ∀ (n : Nat) (s : Sys σ), (drain hk n s).resolved = s.resolved - n := by
  intro n
  induction n with
  | zero => intro s; rfl
  | succ n ih =>
    intro s
    show (drain hk n (drainStep hk s)).resolved = _
    rw [ih]
    show s.resolved - 1 - n = s.resolved - (n + 1)
    omega

theorem drain_queue {σ : Type} (hk : σ → ModeInfo → Nat → σ × ModeInfo × Bool) :
    ∀ (n : Nat) (s : Sys σ), (drain hk n s).queue = s.queue.drop n := by
  intro n
  induction n with
  | zero => intro s; rfl
  | succ n ih =>
    intro s
    show (drain hk n (drainStep hk s)).queue = _
    rw [ih]
    show s.queue.tail.drop n = s.queue.drop (n + 1)
    rw [← List.drop_one, List.drop_drop, Nat.add_comm]

theorem drain_list {σ : Type} (hk : σ → ModeInfo → Nat → σ × ModeInfo × Bool) :
    ∀ (n : Nat) (s : Sys σ), (drain hk n s).list = s.list := by
  intro n
  induction n with
  | zero => intro s; rfl
  | succ n ih => intro s; exact ih (drainStep hk s)

/-- Whenever the resolution loop returns `MAP_AMBIGUOUS`, the `resolved`
counter of the returned state is zero: the drain phase has always run to
completion before the lookup that detected the ambiguity. -/
theorem mloop_amb_resolved {σ : Type} (hk : σ → ModeInfo → Nat → σ × ModeInfo × Bool)
    (t : Bool) : ∀ (fuel : Nat) (cur : Option Map) (s s' : Sys σ),
    mloop hk t fuel cur s = some (s', MAP_AMBIGUOUS) → s'.resolved = 0 := by
  intro fuel
  induction fuel with
  | zero => intro cur s s' h; exact absurd h (by simp [mloop])
  | succ fuel ih =>
    intro cur s s' h
    simp only [mloop] at h
    generalize hs1 : drain hk s.resolved s = s1 at h
    have hres : s1.resolved = 0 := by rw [← hs1, drain_resolved]; omega
    by_cases he : s1.queue.isEmpty
    · rw [if_pos he] at h
      rcases cur with _ | m <;> simp_all
    · rw [if_neg he] at h
      generalize hla : mloop_lookup t s1 = la at h
      by_cases ha : la.2 ≠ 0
      · rw [if_pos ha] at h
        simp only [Option.some.injEq, Prod.mk.injEq] at h
        rw [← h.1]
        exact hres
      · rw [if_neg ha] at h
        rcases hm : la.1 with _ | m <;> rw [hm] at h
        · exact ih _ _ _ h
        · exact ih _ _ _ h

/-! ### Concrete scenario states -/

/-- The C4 table: `lhs="a"→rhs="1"` then `lhs="ab"→rhs="2"`, both mode 0
(bytes: a=97, b=98, '1'=49, '2'=50). -/
def c4_tab : List Map := map_insert (map_insert [] [97] [49] 0) [97, 98] [50] 0

/-- Feeding the single byte `a` into a fresh engine with `c4_tab`. -/
def c4_run1 : Option (Sys Unit × MapState) :=
  map_handle_keys hkUnit 50 10 1 (init c4_tab) [97]

/-- The engine state suspended by `c4_run1`. -/
def c4_s1 : Sys Unit := (c4_run1.map Prod.fst).getD (init c4_tab)

/-- The C2 failing input's table: `a→bbb` and the longer candidate
`bbac→d`, both mode 0. -/
def c2_tab : List Map :=
  map_insert (map_insert [] [98, 98, 97, 99] [100] 0) [97] [98, 98, 98] 0

/-- The C9 witness table: the single mapping `ab→2`, mode 0. -/
def c9_tab : List Map := map_insert [] [97, 98] [50] 0

/-- The state suspended after feeding `a` against `c9_tab`. -/
def c9_s : Sys Unit :=
  ((map_handle_keys hkUnit 50 5 1 (init c9_tab) [97]).map Prod.fst).getD (init c9_tab)

/-! ### Claim theorems (closed evaluations) -/

/-- C1, counterexample: with an empty mapping table, feeding the single
unmapped byte `a` (97) forwards that byte to the consumer — a
literal-fallback resolution occurred — yet the call returns
`MAP_NOMATCH`, not `MAP_DONE` as the claim states. -/
theorem c1_counterexample :
    ((map_handle_keys hkUnit 50 5 1 (init []) [97]).map fun p => (p.2, p.1.out))
        = some (MAP_NOMATCH, [97])
      ∧ MAP_NOMATCH ≠ MAP_DONE := by
  decide

/-- C2, evaluation at the failing input: with capacity 2, the table
`c2_tab` and input `aa`, the call returns `MAP_AMBIGUOUS` holding 3
queued bytes — `qlen = 3 > 2 = capacity` after the call, violating the
claimed invariant (in the C code the expanding substitution wrote past
the fixed-size queue buffer). -/
theorem c2_overflow_eval :
    ((map_handle_keys hkUnit 2 10 1 (init c2_tab) [97, 97]).map
        fun p => (p.2, p.1.queue.length))
      = some (MAP_AMBIGUOUS, 3) ∧ 2 < 3 := by
  decide

/-- C4: with the table `a→1`, `ab→2` (mode 0): feeding `a` alone returns
`MAP_AMBIGUOUS` with nothing forwarded; feeding `b` next forwards exactly
the byte `'2'` (50) and returns `MAP_DONE`; a timeout call instead
forwards exactly the byte `'1'` (49) and returns `MAP_DONE`. -/
theorem c4_two_maps :
    (c4_run1.map fun p => (p.2, p.1.out)) = some (MAP_AMBIGUOUS, [])
  ∧ ((map_handle_keys hkUnit 50 10 2 c4_s1 [98]).map fun p => (p.2, p.1.out))
      = some (MAP_DONE, [50])
  ∧ ((map_handle_keys hkUnit 50 10 3 c4_s1 []).map fun p => (p.2, p.1.out))
      = some (MAP_DONE, [49]) := by
  decide

/-- C6: the key-notation translator sends `<C-A>` and `<C-a>` to byte 1,
`<C-Z>` and `<C-z>` to byte 26, `<CR>` to the newline byte 10, `<Esc>` to
byte 27 (0x1B), and the unrecognized token `<Unknown>` to its own bytes
unchanged, angle brackets included. -/
theorem c6_convert :
    map_convert_keys [60, 67, 45, 65, 62] = [1]
  ∧ map_convert_keys [60, 67, 45, 97, 62] = [1]
  ∧ map_convert_keys [60, 67, 45, 90, 62] = [26]
  ∧ map_convert_keys [60, 67, 45, 122, 62] = [26]
  ∧ map_convert_keys [60, 67, 82, 62] = [10]
  ∧ map_convert_keys [60, 69, 115, 99, 62] = [27]
  ∧ map_convert_keys [60, 85, 110, 107, 110, 111, 119, 110, 62]
      = [60, 85, 110, 107, 110, 111, 119, 110, 62] := by
  decide

/-- C9: whenever `map_handle_keys` returns `MAP_AMBIGUOUS`, the
`resolved` counter of the resulting state is 0 — an ambiguous suspension
never leaves confirmed-but-undispatched bytes at the front of the
queue. -/
theorem c9_ambiguous_resolved {σ : Type} (hk : σ → ModeInfo → Nat → σ × ModeInfo × Bool)
    (capacity fuel tid : Nat) (s s' : Sys σ) (keys : List Nat)
    (h : map_handle_keys hk capacity fuel tid s keys = some (s', MAP_AMBIGUOUS)) :
    s'.resolved = 0 :=
  mloop_amb_resolved hk _ fuel none _ s' h

/-- C9 witness: the concrete ambiguous suspension of table `ab→2` fed
with `a`. -/
theorem c9_witness :
    (map_handle_keys hkUnit 50 5 1 (init c9_tab) [97] = some (c9_s, MAP_AMBIGUOUS))
  ∧ c9_s.resolved = 0 :=
  ⟨by decide, c9_ambiguous_resolved hkUnit 50 5 1 (init c9_tab) c9_s [97] (by decide)⟩

/-- C10: a timeout call (empty `keys`) made while the queue is empty
returns `MAP_NOMATCH` and leaves the whole engine state — queue,
`resolved`, mapping table, show buffer, timer id, mode state, consumer
state and output trace — exactly unchanged; in particular no timer is
armed or cancelled. -/
theorem c10_timeout_empty {σ : Type} (hk : σ → ModeInfo → Nat → σ × ModeInfo × Bool)
    (capacity fuel tid : Nat) (s : Sys σ)
    (hq : s.queue = []) (hr : s.resolved = 0) (hf : 1 ≤ fuel) :
    map_handle_keys hk capacity fuel tid s [] = some (s, MAP_NOMATCH) := by
  cases fuel with
  | zero => omega
  | succ f =>
    obtain ⟨ls, qs, rs, sbs, ts, ms, cs, os⟩ := s
    simp only at hq hr
    subst hq; subst hr
    simp only [map_handle_keys, List.take_nil, List.append_nil]
    rfl

/-- C10 witness: a timeout call on a fresh, empty engine. -/
theorem c10_witness :
    map_handle_keys hkUnit 50 1 7 (init []) [] = some (init [], MAP_NOMATCH) :=
  c10_timeout_empty hkUnit 50 1 7 (init []) rfl rfl (by decide)

/-! ### C3: termination -/

/-- The self-expanding mapping `a→aa` (mode 0). -/
def c3_tab : List Map := map_insert [] [97] [97, 97] 0

/-- With table `a→aa` the resolution loop cycles between the states
`queue = [a], resolved = 0` and `queue = [aa], resolved = 1` (the show
buffer, timer id and output trace vary, so they are quantified), and
therefore exhausts any amount of fuel. -/
theorem c3_loop_aux :
    ∀ (fuel : Nat) (cur : Option Map) (sbs : List Nat) (ts : Nat) (os : List Nat),
    (mloop hkUnit false fuel cur ⟨c3_tab, [97], 0, sbs, ts, ⟨0, false⟩, (), os⟩ = none)
  ∧ (mloop hkUnit false fuel cur ⟨c3_tab, [97, 97], 1, sbs, ts, ⟨0, false⟩, (), os⟩ = none) := by
  intro fuel
  induction fuel with
  | zero => intro cur sbs ts os; exact ⟨rfl, rfl⟩
  | succ fuel ih =>
    intro cur sbs ts os
    exact ⟨(ih _ sbs ts os).2, (ih _ [] ts (os ++ [97])).2⟩

/-- C3, counterexample: with the chained-remap table `a→aa` and input
`a`, `map_handle_keys` does not terminate — no amount of fuel makes the
resolution loop return, contradicting the claim that every table and
input terminates. -/
theorem c3_counterexample :
    ¬ ∃ (fuel : Nat) (s : Sys Unit) (r : MapState),
        map_handle_keys hkUnit 50 fuel 1 (init c3_tab) [97] = some (s, r) := by
  rintro ⟨fuel, s, r, h⟩
  have haux := (c3_loop_aux fuel none [] 1 []).1
  exact Option.noConfusion (h.symm.trans haux)

/-- The match delivered by the scan loop is either the incoming backup or
a record of the scanned list whose lhs fits within the queue. -/
theorem map_lookup_fst (t : Bool) (id : Nat) (q : List Nat) :
    ∀ (l : List Map) (cur : Option Map) (amb : Nat),
      (map_lookup t id q l cur amb).1 = cur ∨
      ∃ m, (map_lookup t id q l cur amb).1 = some m ∧ m ∈ l ∧ m.in_.length ≤ q.length := by
  intro l
  induction l with
  | nil => intro cur amb; left; rfl
  | cons m l ih =>
    intro cur amb
    simp only [map_lookup]
    by_cases hmode : m.mode != id
    · rw [if_pos hmode]
      rcases ih cur amb with h | ⟨m', h1, h2, h3⟩
      · left; exact h
      · right; exact ⟨m', h1, List.mem_cons_of_mem _ h2, h3⟩
    · rw [if_neg hmode]
      by_cases hc : (decide (m.in_.length ≤ q.length) && strncmpEq m.in_ q m.in_.length
          && matchBetter cur m) = true
      · rw [if_pos hc]
        have hle : m.in_.length ≤ q.length := by
          simp only [Bool.and_eq_true, decide_eq_true_eq] at hc
          exact hc.1.1
        rcases ih (some m) _ with h | ⟨m', h1, h2, h3⟩
        · right; exact ⟨m, h, List.mem_cons_self _ _, hle⟩
        · right; exact ⟨m', h1, List.mem_cons_of_mem _ h2, h3⟩
      · rw [if_neg hc]
        rcases ih cur _ with h | ⟨m', h1, h2, h3⟩
        · left; exact h
        · right; exact ⟨m', h1, List.mem_cons_of_mem _ h2, h3⟩

/-- The resolution loop terminates when every record of the table has a
nonempty lhs and an rhs no longer than its lhs: `2·qlen − resolved`
strictly decreases across each iteration. -/
theorem mloop_total {σ : Type} (hk : σ → ModeInfo → Nat → σ × ModeInfo × Bool) (t : Bool) :
    ∀ (fuel : Nat) (cur : Option Map) (s : Sys σ),
      (∀ m ∈ s.list, m.in_ ≠ [] ∧ m.mapped.length ≤ m.in_.length) →
      s.resolved ≤ s.queue.length →
      2 * s.queue.length - s.resolved < fuel →
      (mloop hk t fuel cur s).isSome = true := by
  intro fuel
  induction fuel with
  | zero => intro cur s _ _ h; omega
  | succ fuel ih =>
    intro cur s hmaps hinv hfuel
    simp only [mloop]
    generalize hs1 : drain hk s.resolved s = s1
    have hq1 : s1.queue = s.queue.drop s.resolved := by rw [← hs1, drain_queue]
    have hr1 : s1.resolved = 0 := by rw [← hs1, drain_resolved]; omega
    have hl1 : s1.list = s.list := by rw [← hs1, drain_list]
    have hqlen : s1.queue.length = s.queue.length - s.resolved := by
      rw [hq1, List.length_drop]
    by_cases he : s1.queue.isEmpty
    · rw [if_pos he]; rfl
    · rw [if_neg he]
      have hqpos : 0 < s1.queue.length := by
        rcases hL : s1.queue with _ | ⟨a, as⟩
        · rw [hL] at he; simp at he
        · simp [hL]
      generalize hla : mloop_lookup t s1 = la
      by_cases ha : la.2 ≠ 0
      · rw [if_pos ha]; rfl
      · rw [if_neg ha]
        rcases hm : la.1 with _ | m
        · apply ih
          · intro m' h'
            exact hmaps m' (by rw [← hl1]; exact h')
          · show 1 ≤ s1.queue.length
            omega
          · show 2 * s1.queue.length - 1 < fuel
            omega
        · have hmem : m ∈ s.list ∧ m.in_.length ≤ s1.queue.length := by
            rw [← hla] at hm
            unfold mloop_lookup at hm
            by_cases hn : s1.mode.nomap = true
            · rw [if_pos hn] at hm
              exact absurd hm (by simp)
            · rw [if_neg hn] at hm
              rcases map_lookup_fst t s1.mode.id s1.queue s1.list none 0 with h | ⟨m', h1, h2, h3⟩
              · rw [hm] at h
                exact absurd h (by simp)
              · rw [hm] at h1
                have hmm' : m = m' := by
                  injection h1 with h1'
                subst hmm'
                rw [← hl1]
                exact ⟨h2, h3⟩
          obtain ⟨hmm, hlen⟩ := hmem
          obtain ⟨hne, hshrink⟩ := hmaps m hmm
          have hinpos : 0 < m.in_.length := List.length_pos.mpr hne
          apply ih
          · intro m' h'
            exact hmaps m' (by rw [← hl1]; exact h')
          · show min m.in_.length m.mapped.length ≤ (m.mapped ++ s1.queue.drop m.in_.length).length
            rw [List.length_append, List.length_drop]
            have := Nat.min_le_right m.in_.length m.mapped.length
            omega
          · show 2 * (m.mapped ++ s1.queue.drop m.in_.length).length
                - min m.in_.length m.mapped.length < fuel
            rw [List.length_append, List.length_drop, Nat.min_eq_right hshrink]
            omega

/-- C3, amended: for every table whose records all have a nonempty lhs
and an rhs no longer than the lhs, and every input and pre-state with
`resolved ≤ qlen`, `map_handle_keys` terminates (fuel
`2·(qlen + keylen) + 1` suffices) and returns one of `MAP_DONE`,
`MAP_NOMATCH`, `MAP_AMBIGUOUS`; an expanding mapping whose rhs
re-triggers it (`a→aa`) makes the call loop forever
(`c3_counterexample`). -/
theorem c3_amended {σ : Type} (hk : σ → ModeInfo → Nat → σ × ModeInfo × Bool)
    (capacity tid : Nat) (s : Sys σ) (keys : List Nat)
    (hmaps : ∀ m ∈ s.list, m.in_ ≠ [] ∧ m.mapped.length ≤ m.in_.length)
    (hinv : s.resolved ≤ s.queue.length) :
    ∃ s' r, map_handle_keys hk capacity (2 * (s.queue.length + keys.length) + 1) tid s keys
        = some (s', r) ∧ (r = MAP_DONE ∨ r = MAP_NOMATCH ∨ r = MAP_AMBIGUOUS) := by
  have main : ∀ (t : Bool) (s2 : Sys σ), s2.list = s.list → s2.resolved = s.resolved →
      s.queue.length ≤ s2.queue.length →
      s2.queue.length ≤ s.queue.length + keys.length →
      ∃ s' r, mloop hk t (2 * (s.queue.length + keys.length) + 1) none s2 = some (s', r)
        ∧ (r = MAP_DONE ∨ r = MAP_NOMATCH ∨ r = MAP_AMBIGUOUS) := by
    intro t s2 hl hr hqlow hq
    have hs := mloop_total hk t (2 * (s.queue.length + keys.length) + 1) none s2
      (by rw [hl]; exact hmaps) (by omega) (by omega)
    rcases ho : mloop hk t (2 * (s.queue.length + keys.length) + 1) none s2 with _ | ⟨s', r⟩
    · rw [ho] at hs; exact absurd hs (by simp)
    · exact ⟨s', r, rfl, by rcases r <;> simp⟩
  cases keys with
  | nil =>
    have heq : map_handle_keys hk capacity (2 * (s.queue.length + ([] : List Nat).length) + 1) tid s []
        = mloop hk true (2 * (s.queue.length + ([] : List Nat).length) + 1) none s := by
      simp only [map_handle_keys, List.take_nil, List.append_nil, List.length_nil]
      rfl
    rw [heq]
    exact main true s rfl rfl (Nat.le_refl _) (by simp)
  | cons k ks =>
    have heq : map_handle_keys hk capacity (2 * (s.queue.length + (k :: ks).length) + 1) tid s (k :: ks)
        = mloop hk false (2 * (s.queue.length + (k :: ks).length) + 1) none
            { s with timout_id := tid,
                     queue := s.queue ++ (k :: ks).take (capacity - s.queue.length) } := rfl
    rw [heq]
    exact main false
      { s with timout_id := tid,
               queue := s.queue ++ (k :: ks).take (capacity - s.queue.length) } rfl rfl
      (by simp)
      (by simp only [List.length_append, List.length_take, List.length_cons]; omega)

/-- C3 witness: the amended termination theorem applied to the
non-expanding table `ab→2` with input `ab` from a fresh engine. -/
theorem c3_witness :
    (∀ m ∈ c9_tab, m.in_ ≠ [] ∧ m.mapped.length ≤ m.in_.length)
  ∧ ∃ s' r, map_handle_keys hkUnit 50
        (2 * ((init c9_tab).queue.length + [97, 98].length) + 1) 9 (init c9_tab) [97, 98]
        = some (s', r) ∧ (r = MAP_DONE ∨ r = MAP_NOMATCH ∨ r = MAP_AMBIGUOUS) :=
  ⟨by decide, c3_amended hkUnit 50 9 (init c9_tab) [97, 98] (by decide) (by decide)⟩

/-! ### C1: DONE versus NO_MATCH -/

/-- When no record of the active mode can match or extend the
single-byte queue `[key]`, the scan leaves its accumulator untouched. -/
theorem c1_lookup_aux (t : Bool) (id key : Nat) :
    ∀ (l : List Map), (∀ m ∈ l, m.mode = id → m.in_ ≠ [] ∧ m.in_.head? ≠ some key) →
      ∀ (cur : Option Map) (amb : Nat), map_lookup t id [key] l cur amb = (cur, amb) := by
  intro l
  induction l with
  | nil => intro _ cur amb; rfl
  | cons m l ih =>
    intro h cur amb
    simp only [map_lookup]
    by_cases hmode : m.mode != id
    · rw [if_pos hmode]
      exact ih (fun m' hm' => h m' (List.mem_cons_of_mem _ hm')) cur amb
    · rw [if_neg hmode]
      have hmid : m.mode = id := by
        simpa using hmode
      obtain ⟨hne, hhd⟩ := h m (List.mem_cons_self _ _) hmid
      obtain ⟨x, xs, hxeq⟩ : ∃ x xs, m.in_ = x :: xs := by
        rcases hin : m.in_ with _ | ⟨x, xs⟩
        · rw [hin] at hne
          exact absurd rfl hne
        · exact ⟨x, xs, rfl⟩
      have hxne : (x == key) = false := by
        rw [hxeq] at hhd
        simp only [List.head?_cons, ne_eq, Option.some.injEq] at hhd
        simp [hhd]
      have hs1 : strncmpEq m.in_ [key] 1 = false := by
        rw [hxeq]
        simp [strncmpEq, hxne]
      have hs2 : strncmpEq m.in_ [key] m.in_.length = false := by
        rw [hxeq]
        simp only [List.length_cons, strncmpEq, hxne, Bool.false_and]
      simp only [List.length_singleton, List.length_cons, List.length_nil, Nat.zero_add,
        hs1, hs2, Bool.and_false, Bool.false_and, Bool.false_eq_true, if_false]
      exact ih (fun m' hm' => h m' (List.mem_cons_of_mem _ hm')) cur amb

/-- C1, amended: feeding a single key with no matching prefix in any
mapping for the active mode (no same-mode record is empty or starts with
that byte) into an engine with an empty queue forwards that byte to the
consumer and returns `MAP_NOMATCH` — not `MAP_DONE` as claimed: the
return value at line 161 reports only whether the *last* lookup found a
table match, so literal-fallback resolutions alone yield `MAP_NOMATCH`.
A call returns `MAP_DONE` exactly when the lookup immediately preceding
the final drain found a full table match. -/
theorem c1_amended {σ : Type} (hk : σ → ModeInfo → Nat → σ × ModeInfo × Bool)
    (capacity fuel tid key : Nat) (s : Sys σ)
    (hq : s.queue = []) (hr : s.resolved = 0)
    (hcap : 1 ≤ capacity) (hfuel : 2 ≤ fuel)
    (hmaps : ∀ m ∈ s.list, m.mode = s.mode.id → m.in_ ≠ [] ∧ m.in_.head? ≠ some key) :
    ∃ s', map_handle_keys hk capacity fuel tid s [key] = some (s', MAP_NOMATCH)
      ∧ s'.out = s.out ++ [key] := by
  obtain ⟨f, rfl⟩ : ∃ f, fuel = f + 2 := ⟨fuel - 2, by omega⟩
  obtain ⟨ls, qs, rs, sbs, ts, ⟨mid, mnp⟩, cs, os⟩ := s
  simp only at hq hr hmaps ⊢
  subst hq; subst hr
  have hstep : map_handle_keys hk capacity (f + 2) tid ⟨ls, [], 0, sbs, ts, ⟨mid, mnp⟩, cs, os⟩ [key]
      = mloop hk false (f + 2) none ⟨ls, [key], 0, sbs, tid, ⟨mid, mnp⟩, cs, os⟩ := by
    show mloop hk false (f + 2) none
        ⟨ls, [] ++ [key].take (capacity - ([] : List Nat).length), 0, sbs, tid, ⟨mid, mnp⟩, cs, os⟩ = _
    rw [show ([] : List Nat) ++ [key].take (capacity - ([] : List Nat).length) = [key] by
      simp only [List.length_nil, Nat.sub_zero, List.nil_append]
      exact List.take_of_length_le (by simp; omega)]
  rw [hstep]
  have hlk : mloop_lookup false (⟨ls, [key], 0, sbs, tid, ⟨mid, mnp⟩, cs, os⟩ : Sys σ)
      = (none, 0) := by
    unfold mloop_lookup
    cases mnp with
    | true => rfl
    | false =>
      simp only [if_false, Bool.false_eq_true]
      exact c1_lookup_aux false mid key ls hmaps none 0
  have hiter : mloop hk false (f + 2) none (⟨ls, [key], 0, sbs, tid, ⟨mid, mnp⟩, cs, os⟩ : Sys σ)
      = mloop hk false (f + 1) none
          ⟨ls, [key], 1, showcmd sbs ([key].take 1) true, tid, ⟨mid, mnp⟩, cs, os⟩ := by
    simp only [mloop, drain]
    rw [hlk]
    rfl
  rw [hiter]
  exact ⟨_, rfl, rfl⟩

/-- C1 witness: the amended theorem at the concrete input of an empty
table and key `a`. -/
theorem c1_witness :
    ((init ([] : List Map)).queue = [] ∧ (init []).resolved = 0 ∧ 1 ≤ 50 ∧ 2 ≤ 5)
  ∧ ∃ s', map_handle_keys hkUnit 50 5 1 (init []) [97] = some (s', MAP_NOMATCH)
      ∧ s'.out = (init []).out ++ [97] :=
  ⟨⟨rfl, rfl, by decide, by decide⟩,
   c1_amended hkUnit 50 5 1 97 (init []) rfl rfl (by decide) (by decide)
     (by intro m hm; simp [init] at hm)⟩

/-! ### C8: delete -/

/-- The scan of `map_delete` removes exactly the first matching record:
found-flag equals a match existing; no match leaves the list unchanged;
the result is always a sublist of the input (no surviving record is
altered); on success the list splits around the first match. -/
theorem map_delete_go_spec (lhs : List Nat) (mode : Nat) :
    ∀ l : List Map,
      ((map_delete_go lhs mode l).1 = l.any (del_match lhs mode))
    ∧ ((map_delete_go lhs mode l).1 = false → (map_delete_go lhs mode l).2 = l)
    ∧ (map_delete_go lhs mode l).2.Sublist l
    ∧ ((map_delete_go lhs mode l).1 = true →
        ∃ l₁ m l₂, l = l₁ ++ m :: l₂
          ∧ del_match lhs mode m = true
          ∧ (∀ x ∈ l₁, del_match lhs mode x = false)
          ∧ (map_delete_go lhs mode l).2 = l₁ ++ l₂) := by
  intro l
  induction l with
  | nil =>
    refine ⟨rfl, fun _ => rfl, List.Sublist.refl _, fun h => absurd h (by simp [map_delete_go])⟩
  | cons m l ih =>
    obtain ⟨ih1, ih2, ih3, ih4⟩ := ih
    by_cases hd : del_match lhs mode m = true
    · have hgo : map_delete_go lhs mode (m :: l) = (true, l) := by
        simp [map_delete_go, hd]
      refine ⟨?_, ?_, ?_, ?_⟩
      · rw [hgo]; simp [hd]
      · rw [hgo]; intro h; simp at h
      · rw [hgo]; exact List.sublist_cons_self _ _
      · intro _
        exact ⟨[], m, l, rfl, hd, by simp, by rw [hgo]; simp⟩
    · have hgo : map_delete_go lhs mode (m :: l)
          = ((map_delete_go lhs mode l).1, m :: (map_delete_go lhs mode l).2) := by
        simp [map_delete_go, hd]
      refine ⟨?_, ?_, ?_, ?_⟩
      · rw [hgo]; simp [List.any_cons, hd, ih1]
      · rw [hgo]
        intro h
        simp only at h
        rw [ih2 h]
      · rw [hgo]
        exact List.Sublist.cons₂ _ ih3
      · rw [hgo]
        intro h
        simp only at h
        obtain ⟨l₁, m', l₂, he, hm', hl₁, hres⟩ := ih4 h
        refine ⟨m :: l₁, m', l₂, by simp [he], hm', ?_, by simp only []; rw [hres]; simp⟩
        intro x hx
        rcases List.mem_cons.mp hx with rfl | hx'
        · simpa using hd
        · exact hl₁ x hx'

theorem del_match_eq (lhs : List Nat) (mode : Nat) (m : Map)
    (h1 : ∀ b ∈ m.in_, b ≠ 0) (h2 : ∀ b ∈ lhs, b ≠ 0) :
    del_match lhs mode m = true ↔ (m.mode = mode ∧ m.in_ = lhs) := by
  have ht1 : m.in_.takeWhile (· != 0) = m.in_ := by
    rw [List.takeWhile_eq_self_iff]
    intro b hb
    simpa using h1 b hb
  have ht2 : lhs.takeWhile (· != 0) = lhs := by
    rw [List.takeWhile_eq_self_iff]
    intro b hb
    simpa using h2 b hb
  unfold del_match strcmpEq
  rw [ht1, ht2]
  constructor
  · intro h
    simp only [Bool.and_eq_true, beq_iff_eq] at h
    exact ⟨h.1.1, h.2⟩
  · rintro ⟨ha, hb⟩
    simp [ha, hb]

/-- C8: `map_delete` translates the lhs text, removes the first record
whose mode and translated lhs match exactly (in length and, for NUL-free
byte strings, in bytes) and returns true; with no match it returns false
and leaves the table unchanged; in either case every surviving record is
an unaltered record of the original table (no rhs is touched). -/
theorem c8_delete (l : List Map) (in_ : List Nat) (mode : Nat) :
    ((map_delete l in_ mode).1 = l.any (del_match (map_convert_keys in_) mode))
  ∧ ((map_delete l in_ mode).1 = false → (map_delete l in_ mode).2 = l)
  ∧ ((map_delete l in_ mode).2.Sublist l)
  ∧ ((map_delete l in_ mode).1 = true →
      ∃ l₁ m l₂, l = l₁ ++ m :: l₂
        ∧ del_match (map_convert_keys in_) mode m = true
        ∧ (∀ x ∈ l₁, del_match (map_convert_keys in_) mode x = false)
        ∧ (map_delete l in_ mode).2 = l₁ ++ l₂)
  ∧ (∀ m : Map, (∀ b ∈ m.in_, b ≠ 0) → (∀ b ∈ map_convert_keys in_, b ≠ 0) →
      (del_match (map_convert_keys in_) mode m = true ↔
        (m.mode = mode ∧ m.in_ = map_convert_keys in_))) := by
  obtain ⟨h1, h2, h3, h4⟩ := map_delete_go_spec (map_convert_keys in_) mode l
  exact ⟨h1, h2, h3, h4, fun m hm hl => del_match_eq _ _ _ hm hl⟩

/-- C8 witness: deleting the non-existent lhs `b` from the table holding
only `a→1` reports not-found and leaves the table unchanged. -/
theorem c8_witness :
    (map_delete [⟨[97], [49], 0⟩] [98] 0).1 = false
  ∧ (map_delete [⟨[97], [49], 0⟩] [98] 0).2 = [⟨[97], [49], 0⟩] :=
  ⟨by decide, (c8_delete [⟨[97], [49], 0⟩] [98] 0).2.1 (by decide)⟩

/-! ### C7: best-match selection -/

/-- A record fully matches the queue head: same mode, lhs no longer than
the queue and lhs bytes agreeing (by `strncmp`) with the queue's leading
bytes — the conditions of map.c lines 171 and 181-182. -/
def full_match (modeId : Nat) (queue : List Nat) (m : Map) : Bool :=
  m.mode == modeId && decide (m.in_.length ≤ queue.length)
    && strncmpEq m.in_ queue m.in_.length

theorem map_lookup_best (t : Bool) (id : Nat) (q : List Nat) :
    ∀ (l : List Map) (cur : Option Map) (amb : Nat),
      ((map_lookup t id q l cur amb).1 = cur ∧
        ∀ x ∈ l, full_match id q x = true →
          ∃ c, cur = some c ∧ x.in_.length ≤ c.in_.length)
    ∨ (∃ m l₁ l₂, (map_lookup t id q l cur amb).1 = some m
        ∧ l = l₁ ++ m :: l₂
        ∧ full_match id q m = true
        ∧ (∀ c, cur = some c → c.in_.length < m.in_.length)
        ∧ (∀ x ∈ l₁, full_match id q x = true → x.in_.length < m.in_.length)
        ∧ (∀ x ∈ l₂, full_match id q x = true → x.in_.length ≤ m.in_.length)) := by
  intro l
  induction l with
  | nil =>
    intro cur amb
    left
    exact ⟨rfl, by simp⟩
  | cons m l ih =>
    intro cur amb
    simp only [map_lookup]
    by_cases hmode : (m.mode != id) = true
    · rw [if_pos hmode]
      have hnf : full_match id q m = false := by
        have hne : m.mode ≠ id := bne_iff_ne.mp hmode
        simp [full_match, hne]
      rcases ih cur amb with ⟨h1, h2⟩ | ⟨m', l₁, l₂, hres, hsplit, hfull, hcur, hl₁, hl₂⟩
      · left
        refine ⟨h1, ?_⟩
        intro x hx hfx
        rcases List.mem_cons.mp hx with rfl | hx'
        · rw [hnf] at hfx; cases hfx
        · exact h2 x hx' hfx
      · right
        refine ⟨m', m :: l₁, l₂, hres, by simp [hsplit], hfull, hcur, ?_, hl₂⟩
        intro x hx hfx
        rcases List.mem_cons.mp hx with rfl | hx'
        · rw [hnf] at hfx; cases hfx
        · exact hl₁ x hx' hfx
    · rw [if_neg hmode]
      have hmid : (m.mode == id) = true := by
        have : m.mode = id := by
          by_contra hne
          exact hmode (bne_iff_ne.mpr hne)
        simp [this]
      by_cases hC : (decide (m.in_.length ≤ q.length) && strncmpEq m.in_ q m.in_.length
          && matchBetter cur m) = true
      · rw [if_pos hC]
        simp only [Bool.and_eq_true] at hC
        have hfm : full_match id q m = true := by
          simp only [full_match, Bool.and_eq_true]
          exact ⟨⟨hmid, hC.1.1⟩, hC.1.2⟩
        have hbc : ∀ c, cur = some c → c.in_.length < m.in_.length := by
          intro c hc
          have hb := hC.2
          rw [hc] at hb
          simpa [matchBetter] using hb
        rcases ih (some m) _ with ⟨h1, h2⟩ | ⟨m', l₁, l₂, hres, hsplit, hfull, hcur, hl₁, hl₂⟩
        · right
          refine ⟨m, [], l, h1, rfl, hfm, hbc, by simp, ?_⟩
          intro x hx hfx
          obtain ⟨c, hc, hle⟩ := h2 x hx hfx
          have hcm : m = c := by
            simpa using hc
          rw [← hcm] at hle
          exact hle
        · right
          refine ⟨m', m :: l₁, l₂, hres, by simp [hsplit], hfull, ?_, ?_, hl₂⟩
          · intro c hc
            have h1' := hcur m rfl
            have h2' := hbc c hc
            omega
          · intro x hx hfx
            rcases List.mem_cons.mp hx with rfl | hx'
            · exact hcur _ rfl
            · exact hl₁ x hx' hfx
      · rw [if_neg hC]
        have hcase : full_match id q m = false ∨
            (full_match id q m = true ∧ ∃ c, cur = some c ∧ m.in_.length ≤ c.in_.length) := by
          by_cases hfm : full_match id q m = true
          · right
            refine ⟨hfm, ?_⟩
            simp only [full_match, Bool.and_eq_true] at hfm
            have hmb : matchBetter cur m = false := by
              rcases hmb' : matchBetter cur m with _ | _
              · rfl
              · exact absurd (by simp [hfm.1.2, hfm.2, hmb']) hC
            rcases hcur' : cur with _ | c
            · rw [hcur'] at hmb
              simp [matchBetter] at hmb
            · refine ⟨c, rfl, ?_⟩
              rw [hcur'] at hmb
              simp only [matchBetter, decide_eq_false_iff_not] at hmb
              omega
          · left
            simpa using hfm
        rcases ih cur _ with ⟨h1, h2⟩ | ⟨m', l₁, l₂, hres, hsplit, hfull, hcur, hl₁, hl₂⟩
        · left
          refine ⟨h1, ?_⟩
          intro x hx hfx
          rcases List.mem_cons.mp hx with rfl | hx'
          · rcases hcase with hina | ⟨_, c, hc, hle⟩
            · rw [hina] at hfx; cases hfx
            · exact ⟨c, hc, hle⟩
          · exact h2 x hx' hfx
        · right
          refine ⟨m', m :: l₁, l₂, hres, by simp [hsplit], hfull, hcur, ?_, hl₂⟩
          intro x hx hfx
          rcases List.mem_cons.mp hx with rfl | hx'
          · rcases hcase with hina | ⟨_, c, hc, hle⟩
            · rw [hina] at hfx; cases hfx
            · have := hcur c hc
              omega
          · exact hl₁ x hx' hfx

theorem strncmpEq_self : ∀ (a : List Nat) (n : Nat), strncmpEq a a n = true := by
  intro a
  induction a with
  | nil => intro n; cases n <;> rfl
  | cons x xs ih =>
    intro n
    cases n with
    | zero => rfl
    | succ n => simp [strncmpEq, ih]

theorem strncmpEq_eq_take : ∀ (a q : List Nat), (∀ b ∈ a, b ≠ 0) → a.length ≤ q.length →
    strncmpEq a q a.length = true → a = q.take a.length := by
  intro a
  induction a with
  | nil => intro q _ _ _; rfl
  | cons x xs ih =>
    intro q hz hlen hs
    rcases q with _ | ⟨y, ys⟩
    · simp at hlen
    · simp only [List.length_cons, strncmpEq, Bool.and_eq_true, beq_iff_eq,
        Bool.or_eq_true] at hs
      obtain ⟨rfl, hrest⟩ := hs
      have hx0 : x ≠ 0 := hz x (List.mem_cons_self _ _)
      have hrest' : strncmpEq xs ys xs.length = true := by
        rcases hrest with h0 | h
        · exact absurd (by simpa using h0) hx0
        · exact h
      have := ih ys (fun b hb => hz b (List.mem_cons_of_mem _ hb))
        (by simpa using hlen) hrest'
      simp [List.take_cons, ← this]

theorem map_lookup_keeps (t : Bool) (id : Nat) (q : List Nat) :
    ∀ (l : List Map) (c : Map) (amb : Nat), c.in_.length = q.length →
      (map_lookup t id q l (some c) amb).1 = some c := by
  intro l
  induction l with
  | nil => intro c amb _; rfl
  | cons m l ih =>
    intro c amb hc
    simp only [map_lookup]
    by_cases hmode : (m.mode != id) = true
    · rw [if_pos hmode]
      exact ih c _ hc
    · rw [if_neg hmode]
      have hC : (decide (m.in_.length ≤ q.length) && strncmpEq m.in_ q m.in_.length
          && matchBetter (some c) m) = false := by
        rcases h1 : decide (m.in_.length ≤ q.length) with _ | _
        · simp
        · rcases h2 : matchBetter (some c) m with _ | _
          · simp
          · exfalso
            simp only [decide_eq_true_eq] at h1
            simp only [matchBetter, decide_eq_true_eq] at h2
            omega
      rw [hC]
      simp only [Bool.false_eq_true, if_false]
      exact ih c _ hc

/-- C7: the match returned by the scan loop is a full same-mode match of
greatest lhs length, the first such in list order (everything before it
in the list that fully matches is strictly shorter); for NUL-free lhs
bytes a full match means the lhs equals the queue's leading bytes.
Consequently, since `map_insert` prepends, of two records inserted with
identical lhs and mode the most recently inserted wins the full-match
lookup on that lhs. -/
theorem c7_lookup_best :
    (∀ (t : Bool) (id : Nat) (q : List Nat) (l : List Map) (m : Map),
        (map_lookup t id q l none 0).1 = some m →
        ∃ l₁ l₂, l = l₁ ++ m :: l₂
          ∧ full_match id q m = true
          ∧ (∀ x ∈ l, full_match id q x = true → x.in_.length ≤ m.in_.length)
          ∧ (∀ x ∈ l₁, full_match id q x = true → x.in_.length < m.in_.length)
          ∧ ((∀ b ∈ m.in_, b ≠ 0) → m.in_ = q.take m.in_.length))
  ∧ (∀ (tab : List Map) (lhs r1 r2 : List Nat) (md : Nat),
      (map_lookup false md (map_convert_keys lhs)
        (map_insert (map_insert tab lhs r1 md) lhs r2 md) none 0).1
        = some ⟨map_convert_keys lhs, map_convert_keys r2, md⟩) := by
  constructor
  · intro t id q l m hres
    rcases map_lookup_best t id q l none 0 with ⟨h1, _⟩ |
      ⟨m', l₁, l₂, hres', hsplit, hfull, _, hl₁, hl₂⟩
    · rw [hres] at h1; cases h1
    · rw [hres] at hres'
      have hmm : m = m' := by simpa using hres'
      subst hmm
      refine ⟨l₁, l₂, hsplit, hfull, ?_, hl₁, ?_⟩
      · intro x hx hfx
        rw [hsplit] at hx
        rcases List.mem_append.mp hx with hx1 | hx2
        · exact Nat.le_of_lt (hl₁ x hx1 hfx)
        · rcases List.mem_cons.mp hx2 with rfl | hx3
          · exact Nat.le_refl _
          · exact hl₂ x hx3 hfx
      · intro hz
        simp only [full_match, Bool.and_eq_true, decide_eq_true_eq] at hfull
        exact strncmpEq_eq_take m.in_ q hz hfull.1.2 hfull.2
  · intro tab lhs r1 r2 md
    simp only [map_insert, map_lookup]
    simp only [bne_self_eq_false, Bool.false_eq_true, if_false]
    have hC : (decide ((Map.mk (map_convert_keys lhs) (map_convert_keys r2) md).in_.length
          ≤ (map_convert_keys lhs).length)
        && strncmpEq (Map.mk (map_convert_keys lhs) (map_convert_keys r2) md).in_
            (map_convert_keys lhs)
            (Map.mk (map_convert_keys lhs) (map_convert_keys r2) md).in_.length
        && matchBetter none (Map.mk (map_convert_keys lhs) (map_convert_keys r2) md)) = true := by
      simp [matchBetter, strncmpEq_self]
    rw [hC]
    simp only [if_true]
    have hC2 : (decide ((map_convert_keys lhs).length ≤ (map_convert_keys lhs).length) &&
          strncmpEq (map_convert_keys lhs) (map_convert_keys lhs) (map_convert_keys lhs).length &&
          matchBetter (some ⟨map_convert_keys lhs, map_convert_keys r2, md⟩)
            ⟨map_convert_keys lhs, map_convert_keys r1, md⟩) = false := by
      simp [matchBetter]
    rw [hC2]
    simp only [Bool.false_eq_true, if_false]
    exact map_lookup_keeps false md (map_convert_keys lhs) tab
      ⟨map_convert_keys lhs, map_convert_keys r2, md⟩ _ rfl

/-- C7 witness: the characterization applied to the one-record table
`a→1` looked up with queue `a`. -/
theorem c7_witness :
    ((map_lookup false 0 [97] [⟨[97], [49], 0⟩] none 0).1 = some ⟨[97], [49], 0⟩)
  ∧ ∃ l₁ l₂, ([⟨[97], [49], 0⟩] : List Map) = l₁ ++ ⟨[97], [49], 0⟩ :: l₂
      ∧ full_match 0 [97] ⟨[97], [49], 0⟩ = true
      ∧ (∀ x ∈ ([⟨[97], [49], 0⟩] : List Map), full_match 0 [97] x = true →
          x.in_.length ≤ (Map.mk [97] [49] 0).in_.length)
      ∧ (∀ x ∈ l₁, full_match 0 [97] x = true → x.in_.length < (Map.mk [97] [49] 0).in_.length)
      ∧ ((∀ b ∈ (Map.mk [97] [49] 0).in_, b ≠ 0) →
          (Map.mk [97] [49] 0).in_ = ([97] : List Nat).take (Map.mk [97] [49] 0).in_.length) :=
  ⟨by decide, c7_lookup_best.1 false 0 [97] [⟨[97], [49], 0⟩] ⟨[97], [49], 0⟩ (by decide)⟩

/-! ### C5: the substitution block on the raw buffer -/

theorem getD_set_self (l : List Nat) (i a : Nat) (h : i < l.length) :
    (l.set i a).getD i 0 = a := by
  rw [List.getD_eq_getElem?_getD, List.getElem?_set_self h]
  rfl

theorem getD_set_ne (l : List Nat) (i j a : Nat) (h : i ≠ j) :
    (l.set i a).getD j 0 = l.getD j 0 := by
  rw [List.getD_eq_getElem?_getD, List.getElem?_set_ne h, ← List.getD_eq_getElem?_getD]

theorem shiftR_length (d inlen : Nat) :
    ∀ (j : Nat) (buf : List Nat), (shiftR d inlen j buf).length = buf.length := by
  intro j
  induction j with
  | zero => intro buf; rfl
  | succ j ih =>
    intro buf
    simp only [shiftR]
    split
    · rw [ih, List.length_set]
    · rfl

theorem shiftR_getD (d inlen : Nat) (hd : 1 ≤ d) :
    ∀ (j : Nat) (buf : List Nat), inlen ≤ j → j + d ≤ buf.length → ∀ p,
      (shiftR d inlen j buf).getD p 0 =
        if inlen + d ≤ p ∧ p < j + d then buf.getD (p - d) 0 else buf.getD p 0 := by
  intro j
  induction j with
  | zero =>
    intro buf hin hlen p
    rw [show shiftR d inlen 0 buf = buf from rfl, if_neg (by omega)]
  | succ j ih =>
    intro buf hin hlen p
    by_cases hij : inlen < j + 1
    · have hstep : shiftR d inlen (j + 1) buf
          = shiftR d inlen j (buf.set (j + d) (buf.getD j 0)) := by
        simp only [shiftR]
        rw [if_pos hij]
      rw [hstep,
        ih (buf.set (j + d) (buf.getD j 0)) (by omega) (by rw [List.length_set]; omega) p]
      by_cases h1 : inlen + d ≤ p ∧ p < j + d
      · rw [if_pos h1, if_pos (by omega), getD_set_ne _ _ _ _ (by omega)]
      · by_cases h2 : p = j + d
        · rw [if_neg h1, if_pos (by omega)]
          subst h2
          rw [getD_set_self _ _ _ (by omega)]
          congr 1
          omega
        · rw [if_neg h1, if_neg (by omega), getD_set_ne _ _ _ _ (by omega)]
    · have hstep : shiftR d inlen (j + 1) buf = buf := by
        simp only [shiftR]
        rw [if_neg hij]
      rw [hstep, if_neg (by omega)]

theorem shiftL_go_length :
    ∀ (n i j : Nat) (buf : List Nat), (shiftL_go n i j buf).length = buf.length := by
  intro n
  induction n with
  | zero => intro i j buf; rfl
  | succ n ih =>
    intro i j buf
    show (shiftL_go n (i + 1) (j + 1) (buf.set i (buf.getD j 0))).length = _
    rw [ih, List.length_set]

theorem shiftL_go_getD :
    ∀ (n i j : Nat) (buf : List Nat), i < j → i + n ≤ buf.length → ∀ p,
      (shiftL_go n i j buf).getD p 0 =
        if i ≤ p ∧ p < i + n then buf.getD (p + (j - i)) 0 else buf.getD p 0 := by
  intro n
  induction n with
  | zero =>
    intro i j buf _ _ p
    rw [show shiftL_go 0 i j buf = buf from rfl, if_neg (by omega)]
  | succ n ih =>
    intro i j buf hij hlen p
    show (shiftL_go n (i + 1) (j + 1) (buf.set i (buf.getD j 0))).getD p 0 = _
    rw [ih (i + 1) (j + 1) _ (by omega) (by rw [List.length_set]; omega) p]
    by_cases h1 : i + 1 ≤ p ∧ p < i + 1 + n
    · rw [if_pos h1, if_pos (by omega)]
      have hji : j + 1 - (i + 1) = j - i := by omega
      rw [hji, getD_set_ne _ _ _ _ (by omega)]
    · by_cases h2 : p = i
      · rw [if_neg h1, if_pos (by omega)]
        subst h2
        rw [getD_set_self _ _ _ (by omega)]
        congr 1
        omega
      · rw [if_neg h1, if_neg (by omega), getD_set_ne _ _ _ _ (by omega)]

theorem getElem?_eq_some_getD (l : List Nat) (n : Nat) (h : n < l.length) :
    l[n]? = some (l.getD n 0) := by
  rw [List.getD_eq_getElem l 0 h, List.getElem?_eq_getElem h]

/-- C5: substituting a full match with `lhs_len ≤ qlen` on the raw queue
buffer (valid bytes `queue`, spare capacity `pad`) replaces the first
`lhs_len` bytes by the record's mapped bytes with the tail shifted by the
length delta: the new `qlen` is adjusted by exactly `rhs_len − lhs_len`,
`resolved` is set to `min lhs_len rhs_len`, the buffer keeps its size,
and its first new-`qlen` bytes are `mapped ++ (old queue minus its first
`lhs_len` bytes)`. -/
theorem c5_substitution (queue pad : List Nat) (m : Map)
    (hin : m.in_.length ≤ queue.length)
    (hroom : queue.length + m.mapped.length - m.in_.length ≤ queue.length + pad.length)
    (hz : ∀ b ∈ m.mapped, b ≠ 0) :
    (subst_arr (queue ++ pad) queue.length m).2.1
        = queue.length + m.mapped.length - m.in_.length
  ∧ (subst_arr (queue ++ pad) queue.length m).2.2 = min m.in_.length m.mapped.length
  ∧ (subst_arr (queue ++ pad) queue.length m).1.length = (queue ++ pad).length
  ∧ (subst_arr (queue ++ pad) queue.length m).1.take
        (queue.length + m.mapped.length - m.in_.length)
      = m.mapped ++ queue.drop m.in_.length := by
  set inlen := m.in_.length with hinlen
  set maplen := m.mapped.length with hmaplen
  set qlen := queue.length with hqlen
  set buf := queue ++ pad with hbuf
  have hbuflen : buf.length = qlen + pad.length := by
    rw [hbuf, List.length_append]
  -- the shifted buffer
  set buf1 := (if inlen < maplen then shiftR (maplen - inlen) inlen qlen buf
               else if maplen < inlen then shiftL qlen maplen inlen buf
               else buf) with hbuf1
  have hlen1 : buf1.length = buf.length := by
    rw [hbuf1]
    split
    · rw [shiftR_length]
    · split
      · rw [shiftL, shiftL_go_length]
      · rfl
  have hpoint : ∀ n, n < qlen - inlen →
      buf1.getD (maplen + n) 0 = queue.getD (inlen + n) 0 := by
    intro n hn
    have hqin : buf.getD (inlen + n) 0 = queue.getD (inlen + n) 0 := by
      rw [List.getD_eq_getElem?_getD, List.getD_eq_getElem?_getD, hbuf,
        List.getElem?_append_left (by omega)]
    rcases Nat.lt_trichotomy inlen maplen with hlt | heq | hgt
    · have hb1 : buf1 = shiftR (maplen - inlen) inlen qlen buf := by
        rw [hbuf1, if_pos hlt]
      rw [hb1, shiftR_getD (maplen - inlen) inlen (by omega) qlen buf hin (by omega)
        (maplen + n), if_pos (by omega)]
      have : maplen + n - (maplen - inlen) = inlen + n := by omega
      rw [this, hqin]
    · have hb1 : buf1 = buf := by
        rw [hbuf1, if_neg (by omega), if_neg (by omega)]
      rw [hb1, show maplen + n = inlen + n by omega, hqin]
    · have hb1 : buf1 = shiftL qlen maplen inlen buf := by
        rw [hbuf1, if_neg (by omega), if_pos hgt]
      rw [hb1, shiftL, shiftL_go_getD (qlen - maplen) maplen inlen buf hgt (by omega)
        (maplen + n), if_pos (by omega)]
      have : maplen + n + (inlen - maplen) = inlen + n := by omega
      rw [this, hqin]
  have hcpy : (m.mapped.takeWhile (· != 0) ++ List.replicate maplen 0).take maplen
      = m.mapped := by
    have htw : m.mapped.takeWhile (· != 0) = m.mapped :=
      List.takeWhile_eq_self_iff.mpr (by intro x hx; simpa using hz x hx)
    rw [htw]
    exact List.take_left m.mapped (List.replicate maplen 0)
  have hsub : subst_arr buf qlen m
      = (m.mapped ++ buf1.drop maplen, qlen + maplen - inlen,
          if inlen ≤ maplen then inlen else maplen) := by
    show (strncpyBuf buf1 m.mapped maplen, qlen + maplen - inlen, _) = _
    rw [strncpyBuf, hcpy]
  refine ⟨by rw [hsub], ?_, ?_, ?_⟩
  · rw [hsub]
    show (if inlen ≤ maplen then inlen else maplen) = min inlen maplen
    rw [Nat.min_def]
  · rw [hsub]
    show (m.mapped ++ buf1.drop maplen).length = buf.length
    rw [List.length_append, List.length_drop, hlen1, ← hmaplen]
    omega
  · rw [hsub]
    show (m.mapped ++ buf1.drop maplen).take (qlen + maplen - inlen)
        = m.mapped ++ queue.drop inlen
    rw [List.take_append_eq_append_take,
      List.take_of_length_le (by rw [← hmaplen]; omega)]
    congr 1
    have hrem : qlen + maplen - inlen - m.mapped.length = qlen - inlen := by
      rw [← hmaplen]; omega
    rw [hrem]
    apply List.ext_getElem?
    intro n
    by_cases hn : n < qlen - inlen
    · rw [List.getElem?_take_of_lt hn, List.getElem?_drop, List.getElem?_drop,
        getElem?_eq_some_getD _ _ (by rw [hlen1]; omega),
        getElem?_eq_some_getD _ _ (by omega : inlen + n < queue.length),
        hpoint n hn]
    · have h1 : ((buf1.drop maplen).take (qlen - inlen)).length ≤ n := by
        rw [List.length_take, List.length_drop, hlen1]
        omega
      have h2 : (queue.drop inlen).length ≤ n := by
        rw [List.length_drop]
        omega
      rw [List.getElem?_eq_none h1, List.getElem?_eq_none h2]

/-- C5 witness: the substitution theorem at queue `ac`, two spare cells,
and the growing mapping `a→bb`. -/
theorem c5_witness :
    (subst_arr ([97, 99] ++ [0, 0]) ([97, 99] : List Nat).length ⟨[97], [98, 98], 0⟩).2.1
        = ([97, 99] : List Nat).length + (Map.mk [97] [98, 98] 0).mapped.length
          - (Map.mk [97] [98, 98] 0).in_.length
  ∧ (subst_arr ([97, 99] ++ [0, 0]) ([97, 99] : List Nat).length ⟨[97], [98, 98], 0⟩).2.2
        = min (Map.mk [97] [98, 98] 0).in_.length (Map.mk [97] [98, 98] 0).mapped.length
  ∧ (subst_arr ([97, 99] ++ [0, 0]) ([97, 99] : List Nat).length ⟨[97], [98, 98], 0⟩).1.length
        = (([97, 99] : List Nat) ++ [0, 0]).length
  ∧ (subst_arr ([97, 99] ++ [0, 0]) ([97, 99] : List Nat).length ⟨[97], [98, 98], 0⟩).1.take
        (([97, 99] : List Nat).length + (Map.mk [97] [98, 98] 0).mapped.length
          - (Map.mk [97] [98, 98] 0).in_.length)
      = (Map.mk [97] [98, 98] 0).mapped
          ++ ([97, 99] : List Nat).drop (Map.mk [97] [98, 98] 0).in_.length :=
  c5_substitution [97, 99] [0, 0] ⟨[97], [98, 98], 0⟩ (by decide) (by decide) (by decide)

end Vimb
